import Mathlib

/-!
# Verification of `src/vmm/src/memory_snapshot.rs`

A shallow embedding of the guest-memory snapshot subsystem: the region
state model, `describe`, `dump`, `dump_dirty`, `restore`,
`register_for_upf` and `load_working_set`, together with theorems about
the specified properties.

Modelling conventions:
* guest memory (`GuestMemoryMmap`) is a list of `Region`s, each with its
  guest-physical start address and its byte contents (bytes as `Nat`);
  `with_regions`/`with_regions_mut` iteration is list recursion in order,
  with the slot index counting from 0;
* a seekable writer is a `SWriter`: a current position plus the
  chronological list of seek/write events it received;
* the host page size obtained from `sysconf::page::pagesize()` is passed
  explicitly as a parameter `ps`;
* Rust panics (failed `assert!`, `unwrap`/`expect`, out-of-bounds `Vec`
  indexing) are modelled by an outer `Option` layer: `none` is a panic;
* fallible environment interactions (`File::open`, `MmapRegion::build`,
  `libc::mmap`) are modelled by an `Env` of success predicates;
* `i64` quantities are `Int`, `u64`/`usize` quantities are `Nat`
  (the claims under verification do not concern integer overflow).
-/

namespace MemorySnapshot

/-- A live guest memory region: guest-physical start address and byte
contents. Models one `GuestRegionMmap` of the `GuestMemoryMmap`
collection. -/
structure Region where
  start_addr : Nat
  data : List Nat
deriving DecidableEq

/-- `region.len()`. -/
def Region.len (r : Region) : Nat := r.data.length

/-- `GuestMemoryRegionState`: state of a guest memory region saved to
file/buffer (base address, region size, offset in the file/buffer where
the region is saved). -/
structure GuestMemoryRegionState where
  base_address : Nat
  size : Nat
  offset : Nat
deriving DecidableEq

/-- `GuestMemoryState`: list of region states. -/
structure GuestMemoryState where
  regions : List GuestMemoryRegionState
deriving DecidableEq

/-- The loop body of `describe`: walks the regions pushing one
`GuestMemoryRegionState` per region, accumulating `offset += region.len()`. -/
def describeAux (offset : Nat) : List Region → List GuestMemoryRegionState
  | [] => []
  | r :: rest =>
    ⟨r.start_addr, r.len, offset⟩ :: describeAux (offset + r.len) rest

/-- `fn describe(&self) -> GuestMemoryState` from
`src/vmm/src/memory_snapshot.rs` (lines 116-130): a pure walk over the
collection starting with `offset = 0`. -/
def describe (mem : List Region) : GuestMemoryState :=
  ⟨describeAux 0 mem⟩

/-- Sum of the region sizes of a collection (the length of a full dump). -/
def sumSizes (mem : List Region) : Nat := (mem.map Region.len).sum

/-- The dump-side error type: `Error::WriteMemory` wraps the underlying
`GuestMemoryError`; the wrapped payload is irrelevant to the claims, so
the model keeps only the constructor. -/
inductive DumpError where
  | WriteMemory
deriving DecidableEq

/-- `fn dump<T: Write>(&self, writer) -> Result<(), Error>` from
`src/vmm/src/memory_snapshot.rs` (lines 133-138).

The writer is abstract: a state `σ` with a fallible write operation
(`write_all_to(MemoryRegionAddress(0), writer, region.len())` writes the
whole region's bytes and fails iff the underlying write fails). The walk
over regions is `with_regions_mut`, which stops at the first error;
`map_err(Error::WriteMemory)` turns that into `WriteMemory`. Instead of
`()` the model returns the final writer state on success. -/
def dump {σ : Type} (write : σ → List Nat → Option σ) :
    List Region → σ → Except DumpError σ
  | [], w => .ok w
  | r :: rest, w =>
    match write w r.data with
    | some w2 => dump write rest w2
    | none => .error .WriteMemory

/-- The infallible in-memory writer: appends the written bytes to a
buffer and never fails. Used to express what a successful dump writes. -/
def appendWrite (buf : List Nat) (bs : List Nat) : Option (List Nat) :=
  some (buf ++ bs)

/-- An event received by a seekable writer: a `seek(SeekFrom::Start(n))`
or a write of the given bytes beginning at the given stream position. -/
inductive WEvent where
  | seek : Nat → WEvent
  | write : Nat → List Nat → WEvent
deriving DecidableEq

/-- A seekable writer: current stream position plus the chronological
list of events it received. -/
structure SWriter where
  pos : Nat
  events : List WEvent
deriving DecidableEq

/-- `writer.seek(SeekFrom::Start(n))`. -/
def SWriter.seekTo (w : SWriter) (n : Nat) : SWriter :=
  ⟨n, w.events ++ [.seek n]⟩

/-- Write bytes at the current position; the position advances past them. -/
def SWriter.writeBytes (w : SWriter) (bs : List Nat) : SWriter :=
  ⟨w.pos + bs.length, w.events ++ [.write w.pos bs]⟩

/-- `region.write_all_to(MemoryRegionAddress(a), writer, n)`: writes `n`
bytes of the region starting at region-relative byte address `a`; fails
with a `GuestMemoryError` when `[a, a+n)` is not within the region
(surfaced by `dump_dirty` as `WriteMemory` via `map_err`). -/
def writeAllTo (r : Region) (a : Nat) (w : SWriter) (n : Nat) :
    Except DumpError SWriter :=
  if a + n ≤ r.len then .ok (w.writeBytes ((r.data.drop a).take n))
  else .error .WriteMemory

/-- The 64 bits of one dirty-bitmap word, `((v >> j) & 1) != 0` for
`j` in `0..64`. -/
def wordBits (v : Nat) : List Bool :=
  (List.range 64).map (fun j => (v >>> j) &&& 1 != 0)

/-- The page dirtiness sequence of a bitmap: word `i`'s bit `j` is page
`i*64 + j`, which is position `i*64 + j` of the flattened list since
every word contributes exactly 64 bits. -/
def bitmapBits (bm : List Nat) : List Bool :=
  (bm.map wordBits).flatten

/-- The nested page loop of `dump_dirty` (lines 154-178), flattened to
one step per page bit; `idx` is the page index `(i*64)+j`, `ws` is
`write_size` and `dbs` is `dirty_batch_start` (both in bytes), `wOff` is
`writer_offset`. On a dirty page with `ws = 0` the writer seeks to
`wOff + idx*ps` and the batch starts at `idx*ps`; a clean page with
`ws > 0` flushes the open batch via `write_all_to`. -/
def dumpPages (ps wOff : Nat) (r : Region) :
    List Bool → Nat → Nat → Nat → SWriter → Except DumpError (Nat × Nat × SWriter)
  | [], _, ws, dbs, w => .ok (ws, dbs, w)
  | true :: bs, idx, ws, dbs, w =>
    if ws = 0 then
      dumpPages ps wOff r bs (idx + 1) (ws + ps) (idx * ps)
        (w.seekTo (wOff + idx * ps))
    else
      dumpPages ps wOff r bs (idx + 1) (ws + ps) dbs w
  | false :: bs, idx, ws, dbs, w =>
    if 0 < ws then
      match writeAllTo r dbs w ws with
      | .ok w2 => dumpPages ps wOff r bs (idx + 1) 0 dbs w2
      | .error e => .error e
    else
      dumpPages ps wOff r bs (idx + 1) ws dbs w

/-- The final flush of `dump_dirty` (lines 180-182): if a batch of dirty
pages is still open at the end of the bitmap, write it out. -/
def flushOpen (r : Region) :
    Except DumpError (Nat × Nat × SWriter) → Except DumpError SWriter
  | .error e => .error e
  | .ok (ws, dbs, w) => if 0 < ws then writeAllTo r dbs w ws else .ok w

/-- One region's body inside `dump_dirty`'s `with_regions_mut` closure
(lines 149-185): run the page loop over the region's bitmap from
`write_size = 0`, then flush any still-open batch. -/
def dumpRegion (ps wOff : Nat) (r : Region) (bm : List Nat) (w : SWriter) :
    Except DumpError SWriter :=
  flushOpen r (dumpPages ps wOff r (bitmapBits bm) 0 0 0 w)

/-- The `with_regions_mut` walk of `dump_dirty`: slots count from 0 and
`writer_offset` accumulates `region.len()`. `dirty_bitmap.get(&slot)
.unwrap()` panics (`none`) when a slot has no bitmap entry; the walk
stops at the first closure error. -/
def dumpDirtyAux (ps : Nat) (db : Nat → Option (List Nat)) :
    List Region → Nat → Nat → SWriter → Option (Except DumpError SWriter)
  | [], _, _, w => some (.ok w)
  | r :: rest, slot, wOff, w =>
    match db slot with
    | none => none
    | some bm =>
      match dumpRegion ps wOff r bm w with
      | .ok w2 => dumpDirtyAux ps db rest (slot + 1) (wOff + r.len) w2
      | .error e => some (.error e)

/-- `fn dump_dirty<T: Write + Seek>(&self, writer, dirty_bitmap)` from
`src/vmm/src/memory_snapshot.rs` (lines 141-188). `ps` is the host page
size `sysconf::page::pagesize()`; `db` is the `DirtyBitmap`
(`HashMap<usize, Vec<u64>>`) as a partial lookup from slot to words. -/
def dump_dirty (ps : Nat) (mem : List Region) (db : Nat → Option (List Nat))
    (w : SWriter) : Option (Except DumpError SWriter) :=
  dumpDirtyAux ps db mem 0 0 w

/-- A dirty bitmap holding an entry for every slot below `bms.length`:
slot `k`'s word vector is `bms[k]`. -/
def dbOf (bms : List (List Nat)) : Nat → Option (List Nat) :=
  fun k => bms[k]?

/-- Spec-side (from the claim's words): the maximal runs of consecutive
dirty pages of a dirtiness sequence, as `(start page, page count)` pairs
in ascending page order. `i` is the absolute page index of the head of
the remaining list and `cur` the currently open run, if any. -/
def runsAux : List Bool → Nat → Option (Nat × Nat) → List (Nat × Nat)
  | [], _, none => []
  | [], _, some run => [run]
  | true :: bs, i, none => runsAux bs (i + 1) (some (i, 1))
  | true :: bs, i, some (s, l) => runsAux bs (i + 1) (some (s, l + 1))
  | false :: bs, i, none => runsAux bs (i + 1) none
  | false :: bs, i, some (s, l) => (s, l) :: runsAux bs (i + 1) none

/-- Spec-side: maximal dirty runs of a dirtiness sequence. -/
def dirtyRuns (bs : List Bool) : List (Nat × Nat) := runsAux bs 0 none

/-- Spec-side: the writer events the claim prescribes for one dirty run
`(s, l)` (in pages) of a region whose stream offset is `wOff`: a seek to
`wOff + s*ps` followed by a write there of exactly `l*ps` bytes taken
from the region starting at byte offset `s*ps`. -/
def runEvents (ps wOff : Nat) (r : Region) (run : Nat × Nat) : List WEvent :=
  [.seek (wOff + run.1 * ps),
   .write (wOff + run.1 * ps) ((r.data.drop (run.1 * ps)).take (run.2 * ps))]

/-- Spec-side: all events prescribed for one region. -/
def regionEvents (ps wOff : Nat) (r : Region) (bm : List Nat) : List WEvent :=
  ((dirtyRuns (bitmapBits bm)).map (runEvents ps wOff r)).flatten

/-- Spec-side: the whole prescribed trace, region by region in collection
order, the stream offset accumulating the prefix sums of region sizes. -/
def allEvents (ps : Nat) : List Region → List (List Nat) → Nat → List WEvent
  | [], _, _ => []
  | _ :: _, [], _ => []
  | r :: rs, bm :: bms, wOff =>
    regionEvents ps wOff r bm ++ allEvents ps rs bms (wOff + r.len)

/-- The events contributed by the rest of a region's page loop, given the
open run `cur`: when a run is open its seek has already been emitted, so
the head run of the remaining run list contributes only its write. -/
def contEvents (ps wOff : Nat) (r : Region) :
    Option (Nat × Nat) → List (Nat × Nat) → List WEvent
  | none, runs => (runs.map (runEvents ps wOff r)).flatten
  | some _, [] => []
  | some _, run :: runs =>
    .write (wOff + run.1 * ps) ((r.data.drop (run.1 * ps)).take (run.2 * ps)) ::
      (runs.map (runEvents ps wOff r)).flatten

/-- The `write_size` encoded by an open-run state. -/
def curWS (ps : Nat) : Option (Nat × Nat) → Nat
  | none => 0
  | some (_, l) => l * ps

/-- The end position of an event: a write extends the stream up to the
end of its byte range, a bare seek does not extend the stream. -/
def eventEnd : WEvent → Nat
  | .seek _ => 0
  | .write p d => p + d.length

/-- Total length of the stream produced by a list of events. -/
def fileLength (evs : List WEvent) : Nat :=
  (evs.map eventEnd).foldr max 0

/-- Byte offset `o` of the stream is covered by some write event. -/
def writtenAt (evs : List WEvent) (o : Nat) : Prop :=
  ∃ p d, WEvent.write p d ∈ evs ∧ p ≤ o ∧ o < p + d.length

/-- Forget the final writer position, keeping the event trace. -/
def okEvents (res : Except DumpError SWriter) : Except DumpError (List WEvent) :=
  res.map SWriter.events

/-- `libc` constants (Linux x86_64 values) used by `restore`. -/
def PROT_READ : Nat := 0x1

def PROT_WRITE : Nat := 0x2

def MAP_PRIVATE : Nat := 0x02

def MAP_FIXED : Nat := 0x10

def MAP_ANONYMOUS : Nat := 0x20

def MAP_NORESERVE : Nat := 0x4000

/-- The `Error` enum of the module (payloads dropped: each wraps only the
underlying OS/library error value). -/
inductive RError where
  | FileHandle
  | CreateMemory
  | CreateRegion
  | WriteMemory
  | UserPageFault
  | OverlayRegions
deriving DecidableEq

/-- The arguments of the base-layer `MmapRegion::build(file_offset, size,
prot, flags)` call: optional backing `FileOffset` (path, byte offset),
mapping size, protection and flag bits. -/
structure BaseMmap where
  file_offset : Option (String × Nat)
  size : Nat
  prot : Nat
  flags : Nat
deriving DecidableEq

/-- The arguments of one fixed-address `libc::mmap` call made for the
overlay or working-set layer: byte offset of the target address from the
region's base host address, byte length, protection, flags, backing file
path and byte offset within that file. -/
structure FixedMmap where
  addrOff : Int
  length : Int
  prot : Nat
  flags : Nat
  path : String
  fileOff : Int
deriving DecidableEq

/-- One region of the collection returned by `restore`: its guest base
address and size, the base-layer mapping it was built from, and the
fixed-address mappings applied over it, in application order (overlay
layer first, then working-set layer). -/
structure RestoredRegion where
  base_address : Nat
  size : Nat
  base : BaseMmap
  fixedMaps : List FixedMmap
deriving DecidableEq

/-- Success/failure environment for `restore`'s OS interactions:
whether `File::open(path)` succeeds, whether `MmapRegion::build`
succeeds for given arguments, and whether a fixed-address `libc::mmap`
succeeds for given arguments (returns `MAP_FAILED` otherwise). -/
structure Env where
  openOK : String → Bool
  buildOK : BaseMmap → Bool
  mmapOK : FixedMmap → Bool

/-- Lines 208-216 of `restore`: pick the base layer's flags and backing.
Empty path: `MAP_PRIVATE | MAP_ANONYMOUS`, no file (the OS zero-fills
anonymous mappings). Otherwise `File::open` (and `try_clone`, collapsed
into `openOK`) with `Error::FileHandle` on failure, and
`MAP_NORESERVE | MAP_PRIVATE` backed by `FileOffset(file, region.offset)`.
Protection is always `PROT_READ | PROT_WRITE` (line 221). -/
def baseLayer (env : Env) (mem_file_path : String)
    (region : GuestMemoryRegionState) : Except RError BaseMmap :=
  if mem_file_path = "" then
    .ok ⟨none, region.size, PROT_READ ||| PROT_WRITE,
         MAP_PRIVATE ||| MAP_ANONYMOUS⟩
  else if env.openOK mem_file_path then
    .ok ⟨some (mem_file_path, region.offset), region.size,
         PROT_READ ||| PROT_WRITE, MAP_NORESERVE ||| MAP_PRIVATE⟩
  else .error .FileHandle

/-- Lines 233-240 of `restore`: one fixed-address mapping per overlay
pair `(off, len)` (in the `HashMap`'s iteration order, taken here as the
list order), at address offset `off * page_size`, of `len * page_size`
bytes, backed by the overlay file at byte offset `off * page_size`; a
`MAP_FAILED` return aborts with `Error::OverlayRegions`. -/
def applyOverlay (env : Env) (ps : Int) (overlay_file_path : String) :
    List (Int × Int) → List FixedMmap → Except RError (List FixedMmap)
  | [], acc => .ok acc
  | (off, len) :: rest, acc =>
    let offset := off * ps
    let length := len * ps
    let m : FixedMmap := ⟨offset, length, PROT_READ ||| PROT_WRITE,
      MAP_FIXED ||| MAP_NORESERVE ||| MAP_PRIVATE, overlay_file_path, offset⟩
    if env.mmapOK m then applyOverlay env ps overlay_file_path rest (acc ++ [m])
    else .error .OverlayRegions

/-- Lines 247-257 of `restore`: the working-set layer. Entries are
processed in list order; `region[0]`/`region[1]` are unchecked `Vec`
indexing, a panic (`none`) when the entry has fewer than two elements.
The file offset starts at 0 and accumulates each range's byte length. -/
def applyWS (env : Env) (ps : Int) (ws_file_path : String) :
    List (List Int) → Int → List FixedMmap → Option (Except RError (List FixedMmap))
  | [], _, acc => some (.ok acc)
  | item :: rest, file_off, acc =>
    match item[0]?, item[1]? with
    | some o, some l =>
      let off := o * ps
      let len := l * ps
      let m : FixedMmap := ⟨off, len, PROT_READ ||| PROT_WRITE,
        MAP_FIXED ||| MAP_NORESERVE ||| MAP_PRIVATE, ws_file_path, file_off⟩
      if env.mmapOK m then
        applyWS env ps ws_file_path rest (file_off + len) (acc ++ [m])
      else some (.error .OverlayRegions)
    | _, _ => none

/-- The `for region in state.regions.iter()` loop of `restore` (lines
205-260) followed by `from_regions` (line 282; its `CreateMemory` error
cannot occur for the single region the assertions admit, so it is
modelled as succeeding). `assert!(region.offset == 0)` (line 206) panics
(`none`) on a nonzero stream offset. `GuestRegionMmap::new` is modelled
as succeeding. -/
def restoreRegions (env : Env) (ps : Int) (memP overP : String)
    (oregs : List (Int × Int)) (wsP : String) (wregs : List (List Int)) :
    List GuestMemoryRegionState → List RestoredRegion →
      Option (Except RError (List RestoredRegion))
  | [], acc => some (.ok acc)
  | region :: rest, acc =>
    if region.offset = 0 then
      match baseLayer env memP region with
      | .error e => some (.error e)
      | .ok bm =>
        if env.buildOK bm then
          match (if overP = "" then Except.ok ([] : List FixedMmap)
                 else if env.openOK overP then applyOverlay env ps overP oregs []
                 else .error .FileHandle) with
          | .error e => some (.error e)
          | .ok oms =>
            if wsP = "" then
              restoreRegions env ps memP overP oregs wsP wregs rest
                (acc ++ [⟨region.base_address, region.size, bm, oms⟩])
            else if env.openOK wsP then
              match applyWS env ps wsP wregs 0 [] with
              | none => none
              | some (.error e) => some (.error e)
              | some (.ok wms) =>
                restoreRegions env ps memP overP oregs wsP wregs rest
                  (acc ++ [⟨region.base_address, region.size, bm, oms ++ wms⟩])
            else some (.error .FileHandle)
        else some (.error .CreateRegion)
    else none

/-- `fn restore(mem_file_path, state, enable_user_page_faults,
overlay_file_path, overlay_regions, ws_file_path, ws_regions, load_ws,
fadvise)` from `src/vmm/src/memory_snapshot.rs` (lines 192-283).
`assert!(state.regions.len() == 1)` (line 204) panics (`none`) otherwise.
`enable_user_page_faults`, `load_ws` and `fadvise` are accepted but never
read by the body (the `load_ws` background-loader block is commented
out). `ps` is `sysconf::page::pagesize() as i64`. -/
def restore (env : Env) (ps : Int) (mem_file_path : String)
    (state : GuestMemoryState) (enable_user_page_faults : Bool)
    (overlay_file_path : String) (overlay_regions : List (Int × Int))
    (ws_file_path : String) (ws_regions : List (List Int))
    (load_ws : Bool) (fadvise : String) :
    Option (Except RError (List RestoredRegion)) :=
  if state.regions.length = 1 then
    restoreRegions env ps mem_file_path overlay_file_path overlay_regions
      ws_file_path ws_regions state.regions []
  else none

/-- Spec-side (from the claim's words): the fixed mapping prescribed for
one overlay pair `(page_offset, page_length)`: target
`base + page_offset*page_size`, length `page_length*page_size`, file
offset `page_offset*page_size`. -/
def overlayMapSpec (ps : Int) (overP : String) (pr : Int × Int) : FixedMmap :=
  ⟨pr.1 * ps, pr.2 * ps, PROT_READ ||| PROT_WRITE,
   MAP_FIXED ||| MAP_NORESERVE ||| MAP_PRIVATE, overP, pr.1 * ps⟩

/-- Spec-side (from the claim's words): the working-set fixed mappings
for ranges `[offset_pages, length_pages]` in list order, the file offset
running from `fo` and accumulating each range's byte length. -/
def wsMapsSpec (ps : Int) (wsP : String) (fo : Int) :
    List (List Int) → List FixedMmap
  | [] => []
  | item :: rest =>
    ⟨item.getD 0 0 * ps, item.getD 1 0 * ps, PROT_READ ||| PROT_WRITE,
     MAP_FIXED ||| MAP_NORESERVE ||| MAP_PRIVATE, wsP, fo⟩ ::
      wsMapsSpec ps wsP (fo + item.getD 1 0 * ps) rest

/-- Success/failure environment for `register_for_upf`'s OS interactions:
uffd creation, uffd range registration, socket bind, accept, and fd
transfer. -/
structure UpfEnv where
  uffdCreateOK : Bool
  uffdRegisterOK : Bool
  bindOK : Bool
  acceptOK : Bool
  sendOK : Bool
deriving DecidableEq

/-- Observable steps of `register_for_upf`, in the order performed. The
region's host address is identified by its guest start address. -/
inductive UpfEvent where
  | create (close_on_exec non_blocking : Bool)
  | register (addr len : Nat)
  | bind (path : String)
  | accept
  | sendFd
  | touch (addr : Nat)
deriving DecidableEq

/-- Lines 334-362: the `with_regions` closure body of `register_for_upf`
for one region. Every fallible step uses `.expect`/`.unwrap`, so failure
is a panic (`none`), never an `Err`. On success the events occur in the
listed order: uffd creation (`close_on_exec(true).non_blocking(true)`),
registration of the region's full host range, bind, accept, fd transfer,
then the address-communicating touch (the `print!` dereferencing the
region's first byte). -/
def upfRegion (env : UpfEnv) (sock_file_path : String) (r : Region)
    (tr : List UpfEvent) : Option (List UpfEvent) :=
  if env.uffdCreateOK then
    let tr1 := tr ++ [.create true true]
    if env.uffdRegisterOK then
      let tr2 := tr1 ++ [.register r.start_addr r.len]
      if env.bindOK then
        let tr3 := tr2 ++ [.bind sock_file_path]
        if env.acceptOK then
          let tr4 := tr3 ++ [.accept]
          if env.sendOK then some (tr4 ++ [.sendFd, .touch r.start_addr])
          else none
        else none
      else none
    else none
  else none

/-- The `with_regions` walk of `register_for_upf` over the collection. -/
def upfRegions (env : UpfEnv) (sock_file_path : String) :
    List Region → List UpfEvent → Option (List UpfEvent)
  | [], tr => some tr
  | r :: rest, tr =>
    match upfRegion env sock_file_path r tr with
    | none => none
    | some tr2 => upfRegions env sock_file_path rest tr2

/-- `fn register_for_upf(&self, sock_file_path)` from
`src/vmm/src/memory_snapshot.rs` (lines 333-365). The closure always
returns `Ok(())`, so `map_err(Error::UserPageFault)` never fires: the
only outcomes are success (returned with the event trace) or a panic
(`none`). -/
def register_for_upf (env : UpfEnv) (sock_file_path : String)
    (mem : List Region) : Option (Except RError (List UpfEvent)) :=
  match upfRegions env sock_file_path mem [] with
  | none => none
  | some tr => some (.ok tr)

/-- Spec-side (from the claim's words): the strictly ordered step
sequence per region — creation, then registration, then bind, then
accept, then descriptor transfer, then the address-communicating
touch. -/
def upfTraceSpec (sock_file_path : String) (mem : List Region) : List UpfEvent :=
  (mem.map (fun r => [UpfEvent.create true true,
    .register r.start_addr r.len, .bind sock_file_path, .accept, .sendFd,
    .touch r.start_addr])).flatten

/-- The byte offsets visited by `(off..off+len).step_by(ps)`: `off`,
`off+ps`, ... while below `off+len` (empty when `len ≤ 0`; `ps` is the
positive host page size — `step_by` panics on 0). -/
def stepRange (off len ps : Int) : List Int :=
  (List.range ((len + ps - 1) / ps).toNat).map (fun k => off + k * ps)

/-- The `for item in ws_regions` loop of `load_working_set` (lines
378-384): `item[0]`/`item[1]` are unchecked `Vec` indexing, a panic
(`none`) on an entry with fewer than two elements; otherwise the body
touches one byte per page across `(off..off+len).step_by(page_size)`. -/
def lwsItems (ps : Int) : List (List Int) → List Int → Option (List Int)
  | [], acc => some acc
  | item :: rest, acc =>
    match item[0]?, item[1]? with
    | some o, some l => lwsItems ps rest (acc ++ stepRange (o * ps) (l * ps) ps)
    | _, _ => none

/-- The `with_regions` walk of `load_working_set`: per region the loop
touches `addr + pos`; touches are recorded as
`(region start_addr, offset)` pairs. -/
def lwsRegions (ps : Int) (wregs : List (List Int)) :
    List Region → List (Nat × Int) → Option (List (Nat × Int))
  | [], acc => some acc
  | r :: rest, acc =>
    match lwsItems ps wregs [] with
    | none => none
    | some offs =>
      lwsRegions ps wregs rest (acc ++ offs.map (fun o => (r.start_addr, o)))

/-- `fn load_working_set(&self, ws_regions)` from
`src/vmm/src/memory_snapshot.rs` (lines 367-389). The closure always
returns `Ok(())`, so `map_err(Error::FileHandle)` never fires: the only
outcomes are success (with the touch trace) or a panic (`none`). `ps` is
`sysconf::page::pagesize() as i64`. -/
def load_working_set (mem : List Region) (wregs : List (List Int))
    (ps : Int) : Option (Except RError (List (Nat × Int))) :=
  match lwsRegions ps wregs mem [] with
  | none => none
  | some tr => some (.ok tr)

theorem describeAux_length (off : Nat) (mem : List Region) :
    (describeAux off mem).length = mem.length := by
  induction mem generalizing off with
  | nil => rfl
  | cons r rest ih => simp [describeAux, ih]

theorem describeAux_get (mem : List Region) :
    ∀ (off i : Nat) (h : i < mem.length),
      (describeAux off mem)[i]? =
        some ⟨(mem.get ⟨i, h⟩).start_addr, (mem.get ⟨i, h⟩).len,
              off + sumSizes (mem.take i)⟩ := by
  induction mem with
  | nil => intro off i h; simp at h
  | cons r rest ih =>
    intro off i h
    cases i with
    | zero => simp [describeAux, sumSizes]
    | succ j =>
      have hj : j < rest.length := by simpa using h
      simp only [describeAux, List.getElem?_cons_succ]
      rw [ih (off + r.len) j hj]
      simp [sumSizes, Nat.add_assoc]

/-- C1. `describe` never fails (it is a total pure function of the
collection) and returns one `GuestMemoryRegionState` per region, in the
collection's iteration order; region `i` carries the source region's base
address and size, and its stream offset (`offset`) is the sum of the
sizes of regions `0..i` (prefix sums of sizes, starting at 0). -/
theorem describe_prefix_sums (mem : List Region) (i : Nat) (h : i < mem.length) :
    (describe mem).regions.length = mem.length ∧
    (describe mem).regions[i]? =
      some ⟨(mem.get ⟨i, h⟩).start_addr, (mem.get ⟨i, h⟩).len,
            sumSizes (mem.take i)⟩ := by
  refine ⟨describeAux_length 0 mem, ?_⟩
  have := describeAux_get mem 0 i h
  simpa [describe] using this

/-- Witness for C1 at a concrete two-region collection. -/
theorem describe_prefix_sums_witness :
    (1 : Nat) < ([⟨0, [7, 7]⟩, ⟨8, [9]⟩] : List Region).length ∧
    (describe [⟨0, [7, 7]⟩, ⟨8, [9]⟩]).regions.length = 2 ∧
    (describe [⟨0, [7, 7]⟩, ⟨8, [9]⟩]).regions[1]? = some ⟨8, 1, 2⟩ := by
  have h : (1 : Nat) < ([⟨0, [7, 7]⟩, ⟨8, [9]⟩] : List Region).length := by decide
  have := describe_prefix_sums [⟨0, [7, 7]⟩, ⟨8, [9]⟩] 1 h
  exact ⟨h, this.1, by rw [this.2]; rfl⟩

theorem dump_appendWrite (mem : List Region) (buf : List Nat) :
    dump appendWrite mem buf = .ok (buf ++ (mem.map Region.data).flatten) := by
  induction mem generalizing buf with
  | nil => simp [dump]
  | cons r rest ih => simp [dump, appendWrite, ih]

/-- C2. `dump` writes every region's bytes to the writer in collection
order, contiguously with no gaps: against the infallible in-memory
writer the output is exactly the concatenation of all regions' contents,
whose total length is the sum of the region sizes; and against any
writer, `dump` either succeeds or returns the `WriteMemory` error (any
underlying write failure surfaces as `WriteMemory`). -/
theorem dump_concat_or_writeMemory {σ : Type} (write : σ → List Nat → Option σ)
    (mem : List Region) (w : σ) (buf : List Nat) :
    dump appendWrite mem buf = .ok (buf ++ (mem.map Region.data).flatten) ∧
    ((mem.map Region.data).flatten).length = sumSizes mem ∧
    ((∃ w2, dump write mem w = .ok w2) ∨
      dump write mem w = .error .WriteMemory) := by
  refine ⟨dump_appendWrite mem buf, ?_, ?_⟩
  · simp only [sumSizes, List.length_flatten, List.map_map]
    rfl
  · induction mem generalizing w with
    | nil => exact .inl ⟨w, rfl⟩
    | cons r rest ih =>
      cases hw : write w r.data with
      | none => exact .inr (by simp [dump, hw])
      | some w2 =>
        rcases ih w2 with ⟨w3, h3⟩ | h3
        · exact .inl ⟨w3, by simp [dump, hw, h3]⟩
        · exact .inr (by simp [dump, hw, h3])

theorem contEvents_some_eq (ps wOff : Nat) (r : Region) (a b : Nat × Nat)
    (runs : List (Nat × Nat)) :
    contEvents ps wOff r (some a) runs = contEvents ps wOff r (some b) runs := by
  cases runs <;> rfl

theorem runsAux_open_head (bs : List Bool) :
    ∀ (i s l : Nat), ∃ l2 tail, runsAux bs i (some (s, l)) = (s, l2) :: tail := by
  induction bs with
  | nil => intro i s l; exact ⟨l, [], rfl⟩
  | cons b bs ih =>
    intro i s l
    cases b with
    | true =>
      obtain ⟨l2, tail, h⟩ := ih (i + 1) s (l + 1)
      exact ⟨l2, tail, by simpa [runsAux] using h⟩
    | false => exact ⟨l, runsAux bs (i + 1) none, by simp [runsAux]⟩

theorem dumpPages_spec (ps : Nat) (hps : 0 < ps) (wOff : Nat) (r : Region) :
    ∀ (bs : List Bool) (idx : Nat) (cur : Option (Nat × Nat)) (dbs : Nat)
      (w : SWriter),
      (∀ s l, cur = some (s, l) →
        0 < l ∧ dbs = s * ps ∧ w.pos = wOff + s * ps) →
      (∀ run ∈ runsAux bs idx cur, run.1 * ps + run.2 * ps ≤ r.len) →
      okEvents (flushOpen r (dumpPages ps wOff r bs idx (curWS ps cur) dbs w)) =
        .ok (w.events ++ contEvents ps wOff r cur (runsAux bs idx cur)) := by
  intro bs
  induction bs with
  | nil =>
    intro idx cur dbs w hcur hb
    cases cur with
    | none => simp [dumpPages, flushOpen, curWS, contEvents, runsAux, okEvents, Except.map]
    | some run =>
      obtain ⟨s, l⟩ := run
      obtain ⟨hl, hdbs, hpos⟩ := hcur s l rfl
      have hws : 0 < l * ps := Nat.mul_pos hl hps
      have hbd : s * ps + l * ps ≤ r.len := by
        simpa using hb (s, l) (by simp [runsAux])
      simp only [dumpPages, flushOpen, curWS, if_pos hws]
      rw [hdbs]
      simp only [writeAllTo, if_pos hbd]
      simp [okEvents, Except.map, SWriter.writeBytes, hpos, contEvents, runsAux]
  | cons b bs ih =>
    intro idx cur dbs w hcur hb
    cases b with
    | true =>
      cases cur with
      | none =>
        have hrw : runsAux (true :: bs) idx none =
            runsAux bs (idx + 1) (some (idx, 1)) := rfl
        have step : dumpPages ps wOff r (true :: bs) idx (curWS ps none) dbs w =
            dumpPages ps wOff r bs (idx + 1) (curWS ps (some (idx, 1))) (idx * ps)
              (w.seekTo (wOff + idx * ps)) := by
          simp [dumpPages, curWS]
        rw [step, ih (idx + 1) (some (idx, 1)) (idx * ps)
          (w.seekTo (wOff + idx * ps))
          (by intro s l h; cases h; exact ⟨Nat.one_pos, rfl, rfl⟩)
          (by rw [← hrw]; exact hb)]
        rw [hrw]
        obtain ⟨l2, tail, hrt⟩ := runsAux_open_head bs (idx + 1) idx 1
        rw [hrt]
        simp [SWriter.seekTo, contEvents, runEvents, runsAux]
      | some run =>
        obtain ⟨s, l⟩ := run
        obtain ⟨hl, hdbs, hpos⟩ := hcur s l rfl
        have hne : l * ps ≠ 0 := (Nat.mul_pos hl hps).ne'
        have hrw : runsAux (true :: bs) idx (some (s, l)) =
            runsAux bs (idx + 1) (some (s, l + 1)) := rfl
        have step : dumpPages ps wOff r (true :: bs) idx (curWS ps (some (s, l)))
              dbs w =
            dumpPages ps wOff r bs (idx + 1) (curWS ps (some (s, l + 1))) dbs w := by
          simp only [curWS, Nat.succ_mul, dumpPages]
          rw [if_neg hne]
        rw [step, ih (idx + 1) (some (s, l + 1)) dbs w
          (by intro s2 l2 h; cases h; exact ⟨Nat.succ_pos l, hdbs, hpos⟩)
          (by rw [← hrw]; exact hb)]
        rw [hrw, contEvents_some_eq ps wOff r (s, l + 1) (s, l)]
    | false =>
      cases cur with
      | none =>
        have hrw : runsAux (false :: bs) idx none = runsAux bs (idx + 1) none := rfl
        have step : dumpPages ps wOff r (false :: bs) idx (curWS ps none) dbs w =
            dumpPages ps wOff r bs (idx + 1) (curWS ps none) dbs w := by
          simp [dumpPages, curWS]
        rw [step, ih (idx + 1) none dbs w (by intro s l h; cases h)
          (by rw [← hrw]; exact hb)]
        rw [hrw]
      | some run =>
        obtain ⟨s, l⟩ := run
        obtain ⟨hl, hdbs, hpos⟩ := hcur s l rfl
        have hws : 0 < l * ps := Nat.mul_pos hl hps
        have hrw : runsAux (false :: bs) idx (some (s, l)) =
            (s, l) :: runsAux bs (idx + 1) none := rfl
        have hbd : s * ps + l * ps ≤ r.len := by
          simpa using hb (s, l) (by rw [hrw]; exact List.mem_cons_self _ _)
        have step : dumpPages ps wOff r (false :: bs) idx (curWS ps (some (s, l)))
              dbs w =
            dumpPages ps wOff r bs (idx + 1) (curWS ps none) dbs
              (w.writeBytes ((r.data.drop (s * ps)).take (l * ps))) := by
          simp only [dumpPages, curWS, if_pos hws]
          rw [hdbs]
          simp only [writeAllTo, if_pos hbd]
        rw [step, ih (idx + 1) none dbs _ (by intro s2 l2 h; cases h)
          (by
            intro run hrun
            exact hb run (by rw [hrw]; exact List.mem_cons_of_mem _ hrun))]
        rw [hrw]
        simp [SWriter.writeBytes, hpos, contEvents, runEvents]

theorem dumpRegion_spec (ps : Nat) (hps : 0 < ps) (wOff : Nat) (r : Region)
    (bm : List Nat) (w : SWriter)
    (hb : ∀ run ∈ dirtyRuns (bitmapBits bm),
      run.1 * ps + run.2 * ps ≤ r.len) :
    okEvents (dumpRegion ps wOff r bm w) =
      .ok (w.events ++ regionEvents ps wOff r bm) := by
  have h := dumpPages_spec ps hps wOff r (bitmapBits bm) 0 none 0 w
    (by intro s l h; cases h) hb
  simpa [dumpRegion, curWS, contEvents, dirtyRuns, regionEvents] using h

theorem dumpDirtyAux_spec (ps : Nat) (hps : 0 < ps) :
    ∀ (mem : List Region) (bms : List (List Nat)) (db : Nat → Option (List Nat))
      (slot wOff : Nat) (w : SWriter),
      (∀ j, j < mem.length → db (slot + j) = bms[j]?) →
      mem.length ≤ bms.length →
      (∀ pr ∈ mem.zip bms, ∀ run ∈ dirtyRuns (bitmapBits pr.2),
        run.1 * ps + run.2 * ps ≤ pr.1.len) →
      (dumpDirtyAux ps db mem slot wOff w).map okEvents =
        some (.ok (w.events ++ allEvents ps mem bms wOff)) := by
  intro mem
  induction mem with
  | nil =>
    intro bms db slot wOff w hdb hlen hb
    simp [dumpDirtyAux, allEvents, okEvents, Except.map]
  | cons r rest ih =>
    intro bms db slot wOff w hdb hlen hb
    cases bms with
    | nil => simp at hlen
    | cons bm bms =>
      have hdb0 : db slot = some bm := by
        have := hdb 0 (Nat.succ_pos _)
        simpa using this
      have hbr : ∀ run ∈ dirtyRuns (bitmapBits bm),
          run.1 * ps + run.2 * ps ≤ r.len := by
        intro run hrun
        exact hb (r, bm) (by simp [List.zip_cons_cons]) run hrun
      have hreg := dumpRegion_spec ps hps wOff r bm w hbr
      obtain ⟨w2, hw2⟩ : ∃ w2, dumpRegion ps wOff r bm w = .ok w2 := by
        cases hd : dumpRegion ps wOff r bm w with
        | ok w2 => exact ⟨w2, rfl⟩
        | error e => rw [hd] at hreg; simp [okEvents, Except.map] at hreg
      have hev : w2.events = w.events ++ regionEvents ps wOff r bm := by
        rw [hw2] at hreg
        simpa [okEvents, Except.map] using hreg
      have hdbrest : ∀ j, j < rest.length → db (slot + 1 + j) = bms[j]? := by
        intro j hj
        have := hdb (j + 1) (by simpa using Nat.succ_lt_succ hj)
        simpa [Nat.add_assoc, Nat.add_comm 1 j] using this
      have hbrest : ∀ pr ∈ rest.zip bms, ∀ run ∈ dirtyRuns (bitmapBits pr.2),
          run.1 * ps + run.2 * ps ≤ pr.1.len := by
        intro pr hpr
        exact hb pr (by simp [List.zip_cons_cons, hpr])
      have := ih bms db (slot + 1) (wOff + r.len) w2 hdbrest
        (by simpa using Nat.le_of_succ_le_succ hlen) hbrest
      simp only [dumpDirtyAux, hdb0, hw2, this, allEvents, hev,
        List.append_assoc]

/-- C3. On a dirty bitmap with an entry for every region slot (slot `k`
holding `bms[k]`), and with every dirty run lying inside its region,
`dump_dirty` succeeds and its writer trace is exactly: for each region in
collection order, for each maximal run of consecutive dirty pages of that
region's bitmap in ascending page order, a seek to
`(sum of sizes of prior regions) + run_start_page_offset` followed by a
write there of exactly the run's byte length taken from the region
starting at `run_start_page_offset`; runs are exactly the maximal dirty
runs (`dirtyRuns`), i.e. they are flushed when a clean page follows and
at the end of the bitmap. The bitmap is interpreted with the page size
`ps`, the model's stand-in for the host's native page size
(`sysconf::page::pagesize()`). -/
theorem dump_dirty_maximal_runs (ps : Nat) (mem : List Region)
    (bms : List (List Nat)) (w : SWriter)
    (hps : 0 < ps)
    (hlen : mem.length ≤ bms.length)
    (hb : ∀ pr ∈ mem.zip bms, ∀ run ∈ dirtyRuns (bitmapBits pr.2),
      run.1 * ps + run.2 * ps ≤ pr.1.len) :
    (dump_dirty ps mem (dbOf bms) w).map okEvents =
      some (.ok (w.events ++ allEvents ps mem bms 0)) := by
  exact dumpDirtyAux_spec ps hps mem bms (dbOf bms) 0 0 w
    (by intro j hj; simp [dbOf]) hlen hb

/-- Witness for C3: one three-byte region with page size 1 and bitmap
word `0b101` (pages 0 and 2 dirty, page 1 clean). -/
theorem dump_dirty_maximal_runs_witness :
    0 < 1 ∧
    ([⟨0, [10, 20, 30]⟩] : List Region).length ≤ ([[5]] : List (List Nat)).length ∧
    (∀ pr ∈ ([⟨0, [10, 20, 30]⟩] : List Region).zip ([[5]] : List (List Nat)),
      ∀ run ∈ dirtyRuns (bitmapBits pr.2), run.1 * 1 + run.2 * 1 ≤ pr.1.len) ∧
    (dump_dirty 1 [⟨0, [10, 20, 30]⟩] (dbOf [[5]]) ⟨0, []⟩).map okEvents =
      some (.ok (SWriter.events ⟨0, []⟩ ++ allEvents 1 [⟨0, [10, 20, 30]⟩] [[5]] 0)) := by
  refine ⟨by decide, by decide, by decide, ?_⟩
  exact dump_dirty_maximal_runs 1 [⟨0, [10, 20, 30]⟩] [[5]] ⟨0, []⟩
    (by decide) (by decide) (by decide)

/-- Counterexample to C4: one region of two one-byte pages (`ps = 1`),
bitmap word `1` (page 0 dirty, page 1 clean). `dump_dirty` emits only
`seek 0; write 0 [5]`, so the produced stream has total length 1, while a
full dump of the collection has length `sumSizes = 2`: the stream is
shorter than a full dump because nothing ever extends it past the last
dirty byte. -/
theorem dump_dirty_full_length_cex :
    (dump_dirty 1 [⟨0, [5, 7]⟩] (dbOf [[1]]) ⟨0, []⟩).map okEvents =
      some (.ok [.seek 0, .write 0 [5]]) ∧
    fileLength [.seek 0, .write 0 [5]] = 1 ∧
    sumSizes [⟨0, [5, 7]⟩] = 2 := by
  refine ⟨rfl, rfl, rfl⟩

theorem runsAux_start (bs : List Bool) :
    ∀ (i : Nat) (cur : Option (Nat × Nat)) (rn : Nat × Nat),
      rn ∈ runsAux bs i cur →
      (∃ l0, cur = some (rn.1, l0)) ∨ i ≤ rn.1 := by
  induction bs with
  | nil =>
    intro i cur rn hrn
    cases cur with
    | none => simp [runsAux] at hrn
    | some run =>
      obtain ⟨s, l⟩ := run
      simp [runsAux] at hrn
      subst hrn
      exact .inl ⟨l, rfl⟩
  | cons b bs ih =>
    intro i cur rn hrn
    cases b with
    | true =>
      cases cur with
      | none =>
        rcases ih (i + 1) (some (i, 1)) rn hrn with ⟨l0, h⟩ | h
        · obtain ⟨h1, -⟩ := Prod.mk.injEq .. ▸ Option.some.inj h
          exact .inr (le_of_eq h1)
        · exact .inr (Nat.le_of_succ_le h)
      | some run =>
        obtain ⟨s, l⟩ := run
        rcases ih (i + 1) (some (s, l + 1)) rn hrn with ⟨l0, h⟩ | h
        · obtain ⟨h1, -⟩ := Prod.mk.injEq .. ▸ Option.some.inj h
          exact .inl ⟨l, by rw [h1]⟩
        · exact .inr (Nat.le_of_succ_le h)
    | false =>
      cases cur with
      | none =>
        rcases ih (i + 1) none rn hrn with ⟨l0, h⟩ | h
        · cases h
        · exact .inr (Nat.le_of_succ_le h)
      | some run =>
        obtain ⟨s, l⟩ := run
        rcases List.mem_cons.mp hrn with h | h
        · exact .inl ⟨l, by rw [h]⟩
        · rcases ih (i + 1) none rn h with ⟨l0, h2⟩ | h2
          · cases h2
          · exact .inr (Nat.le_of_succ_le h2)

theorem runsAux_dirty (bs : List Bool) :
    ∀ (i : Nat) (cur : Option (Nat × Nat)),
      (∀ s l, cur = some (s, l) → s + l = i) →
      ∀ rn ∈ runsAux bs i cur, ∀ q, i ≤ q → rn.1 ≤ q → q < rn.1 + rn.2 →
        bs.getD (q - i) false = true := by
  induction bs with
  | nil =>
    intro i cur hcur rn hrn q hiq hsq hql
    cases cur with
    | none => simp [runsAux] at hrn
    | some run =>
      obtain ⟨s, l⟩ := run
      simp [runsAux] at hrn
      subst hrn
      have := hcur s l rfl
      omega
  | cons b bs ih =>
    intro i cur hcur rn hrn q hiq hsq hql
    cases b with
    | true =>
      cases cur with
      | none =>
        rcases Nat.eq_or_lt_of_le hiq with hqi | hqi
        · simp [← hqi]
        · have h := ih (i + 1) (some (i, 1)) (by intro s l h; cases h; rfl)
            rn hrn q hqi hsq hql
          have hq : q - i = (q - (i + 1)) + 1 := by omega
          rw [hq]
          simpa using h
      | some run =>
        obtain ⟨s, l⟩ := run
        rcases Nat.eq_or_lt_of_le hiq with hqi | hqi
        · simp [← hqi]
        · have h := ih (i + 1) (some (s, l + 1))
            (by intro s2 l2 h; cases h; have := hcur s l rfl; omega)
            rn hrn q hqi hsq hql
          have hq : q - i = (q - (i + 1)) + 1 := by omega
          rw [hq]
          simpa using h
    | false =>
      cases cur with
      | none =>
        have hstart : i + 1 ≤ rn.1 := by
          rcases runsAux_start bs (i + 1) none rn hrn with ⟨l0, h⟩ | h
          · cases h
          · exact h
        have h := ih (i + 1) none (by intro s l h; cases h) rn hrn q
          (by omega) hsq hql
        have hq : q - i = (q - (i + 1)) + 1 := by omega
        rw [hq]
        simpa using h
      | some run =>
        obtain ⟨s, l⟩ := run
        rcases List.mem_cons.mp hrn with h | h
        · subst h
          have := hcur s l rfl
          simp at hsq hql
          omega
        · have hstart : i + 1 ≤ rn.1 := by
            rcases runsAux_start bs (i + 1) none rn h with ⟨l0, h2⟩ | h2
            · cases h2
            · exact h2
          have h2 := ih (i + 1) none (by intro s l h3; cases h3) rn h q
            (by omega) hsq hql
          have hq : q - i = (q - (i + 1)) + 1 := by omega
          rw [hq]
          simpa using h2

theorem dirtyRuns_dirty (bs : List Bool) (rn : Nat × Nat)
    (hrn : rn ∈ dirtyRuns bs) (q : Nat) (hsq : rn.1 ≤ q)
    (hql : q < rn.1 + rn.2) : bs.getD q false = true := by
  have := runsAux_dirty bs 0 none (by intro s l h; cases h) rn hrn q
    (Nat.zero_le q) hsq hql
  simpa using this

theorem sumSizes_append (a b : List Region) :
    sumSizes (a ++ b) = sumSizes a + sumSizes b := by
  simp [sumSizes]

theorem sumSizes_take_le (mem : List Region) (a : Nat) :
    sumSizes (mem.take a) ≤ sumSizes mem := by
  conv_rhs => rw [← List.take_append_drop a mem]
  rw [sumSizes_append]
  exact Nat.le_add_right _ _

theorem sumSizes_take_mono (mem : List Region) {a b : Nat} (h : a ≤ b) :
    sumSizes (mem.take a) ≤ sumSizes (mem.take b) := by
  have : mem.take a = (mem.take b).take a := by
    rw [List.take_take, Nat.min_eq_left h]
  rw [this]
  exact sumSizes_take_le _ _

theorem sumSizes_take_succ (mem : List Region) (j : Nat) (hj : j < mem.length) :
    sumSizes (mem.take (j + 1)) =
      sumSizes (mem.take j) + (mem.get ⟨j, hj⟩).len := by
  rw [List.take_succ, sumSizes_append]
  congr 1
  rw [List.getElem?_eq_getElem hj]
  simp [sumSizes]

theorem mem_allEvents_write (ps : Nat) :
    ∀ (mem : List Region) (bms : List (List Nat)) (wOff p : Nat) (d : List Nat),
      WEvent.write p d ∈ allEvents ps mem bms wOff →
      ∃ k, ∃ hk : k < mem.length, ∃ s l,
        (s, l) ∈ dirtyRuns (bitmapBits (bms.getD k [])) ∧
        p = wOff + sumSizes (mem.take k) + s * ps ∧
        d = ((mem.get ⟨k, hk⟩).data.drop (s * ps)).take (l * ps) := by
  intro mem
  induction mem with
  | nil => intro bms wOff p d h; simp [allEvents] at h
  | cons r rs ih =>
    intro bms wOff p d h
    cases bms with
    | nil => simp [allEvents] at h
    | cons bm bms =>
      rw [allEvents] at h
      rcases List.mem_append.mp h with h | h
      · rw [regionEvents] at h
        rcases List.mem_flatten.mp h with ⟨evs, hevs, hev⟩
        rcases List.mem_map.mp hevs with ⟨run, hrun, hre⟩
        obtain ⟨s, l⟩ := run
        subst hre
        rcases List.mem_cons.mp hev with h2 | h2
        · cases h2
        · rcases List.mem_cons.mp h2 with h3 | h3
          · obtain ⟨hp, hd⟩ := WEvent.write.inj h3
            refine ⟨0, Nat.succ_pos _, s, l, ?_, ?_, ?_⟩
            · simpa using hrun
            · simp [sumSizes, hp]
            · exact hd
          · simp at h3
      · obtain ⟨k, hk, s, l, hrun, hp, hd⟩ := ih bms (wOff + r.len) p d h
        refine ⟨k + 1, Nat.succ_lt_succ hk, s, l, ?_, ?_, ?_⟩
        · simpa using hrun
        · rw [hp, sumSizes]
          simp [List.take_cons, sumSizes]
          ring
        · exact hd

theorem fileLength_le (evs : List WEvent) (n : Nat)
    (h : ∀ ev ∈ evs, eventEnd ev ≤ n) : fileLength evs ≤ n := by
  induction evs with
  | nil => simp [fileLength]
  | cons e evs ih =>
    have : fileLength (e :: evs) = max (eventEnd e) (fileLength evs) := rfl
    rw [this]
    exact max_le (h e (List.mem_cons_self _ _))
      (ih (fun ev hev => h ev (List.mem_cons_of_mem _ hev)))

theorem getD_eq_get_of_lt {α : Type} (l : List α) (d : α) {k : Nat}
    (hk : k < l.length) : l.getD k d = l.get ⟨k, hk⟩ := by
  rw [List.getD_eq_getElem?_getD, List.getElem?_eq_getElem hk]
  rfl

theorem zip_get_mem {mem : List Region} {bms : List (List Nat)} {k : Nat}
    (hk : k < mem.length) (hlen : mem.length ≤ bms.length) :
    (mem.get ⟨k, hk⟩, bms.getD k []) ∈ mem.zip bms := by
  have hk2 : k < bms.length := lt_of_lt_of_le hk hlen
  have hkz : k < (mem.zip bms).length := by
    rw [List.length_zip]
    omega
  have hg : (mem.zip bms).get ⟨k, hkz⟩ =
      (mem.get ⟨k, hk⟩, bms.get ⟨k, hk2⟩) := by
    simp [List.getElem_zip]
  rw [getD_eq_get_of_lt bms [] hk2]
  exact hg ▸ List.get_mem _ _ _

/-- C4 amended. For every guest memory collection and dirty bitmap (one
entry per slot, runs within their regions), `dump_dirty` succeeds and
the output stream's total length is AT MOST that of a full dump (the sum
of all region sizes) — not in general equal, see
`dump_dirty_full_length_cex`: nothing extends the stream past the last
dirty byte written. Bytes at offsets corresponding to clean pages are
never written (left as holes). -/
theorem dump_dirty_hole_bytes (ps : Nat) (mem : List Region)
    (bms : List (List Nat)) (hps : 0 < ps) (hlen : mem.length ≤ bms.length)
    (hb : ∀ pr ∈ mem.zip bms, ∀ run ∈ dirtyRuns (bitmapBits pr.2),
      run.1 * ps + run.2 * ps ≤ pr.1.len) :
    (dump_dirty ps mem (dbOf bms) ⟨0, []⟩).map okEvents =
      some (.ok (allEvents ps mem bms 0)) ∧
    fileLength (allEvents ps mem bms 0) ≤ sumSizes mem ∧
    (∀ k (hk : k < mem.length) (pg rr : Nat), rr < ps →
      pg * ps + rr < (mem.get ⟨k, hk⟩).len →
      (bitmapBits (bms.getD k [])).getD pg false = false →
      ¬ writtenAt (allEvents ps mem bms 0)
        (sumSizes (mem.take k) + pg * ps + rr)) := by
  refine ⟨?_, ?_, ?_⟩
  · have := dumpDirtyAux_spec ps hps mem bms (dbOf bms) 0 0 ⟨0, []⟩
      (by intro j hj; simp [dbOf]) hlen hb
    simpa [dump_dirty] using this
  · apply fileLength_le
    intro ev hev
    cases ev with
    | seek n => simp [eventEnd]
    | write p d =>
      obtain ⟨k, hk, s, l, hrun, hp, hd⟩ :=
        mem_allEvents_write ps mem bms 0 p d hev
      have hrb : s * ps + l * ps ≤ (mem.get ⟨k, hk⟩).len :=
        hb _ (zip_get_mem hk hlen) (s, l) hrun
      have hdl : d.length ≤ l * ps := by
        rw [hd]
        simp
      have h1 : sumSizes (mem.take (k + 1)) ≤ sumSizes mem :=
        sumSizes_take_le mem (k + 1)
      rw [sumSizes_take_succ mem k hk] at h1
      simp only [eventEnd]
      omega
  · intro k hk pg rr hrr hpg hclean hwr
    obtain ⟨p, d, hmem, hple, hlt⟩ := hwr
    obtain ⟨k2, hk2, s, l, hrun, hp, hd⟩ :=
      mem_allEvents_write ps mem bms 0 p d hmem
    have hrb : s * ps + l * ps ≤ (mem.get ⟨k2, hk2⟩).len :=
      hb _ (zip_get_mem hk2 hlen) (s, l) hrun
    have hdl : d.length ≤ l * ps := by
      rw [hd]
      simp
    have hkk : k2 = k := by
      rcases Nat.lt_trichotomy k2 k with h | h | h
      · exfalso
        have h1 : p + d.length ≤ sumSizes (mem.take (k2 + 1)) := by
          rw [sumSizes_take_succ mem k2 hk2]
          omega
        have h2 : sumSizes (mem.take (k2 + 1)) ≤ sumSizes (mem.take k) :=
          sumSizes_take_mono mem h
        omega
      · exact h
      · exfalso
        have h1 : sumSizes (mem.take k) + pg * ps + rr <
            sumSizes (mem.take (k + 1)) := by
          rw [sumSizes_take_succ mem k hk]
          omega
        have h2 : sumSizes (mem.take (k + 1)) ≤ sumSizes (mem.take k2) :=
          sumSizes_take_mono mem h
        omega
    subst hkk
    have hsle : s * ps ≤ pg * ps + rr := by omega
    have hub : pg * ps + rr < s * ps + l * ps := by omega
    have hspg : s ≤ pg := by
      by_contra hc
      push_neg at hc
      have h5 : (pg + 1) * ps ≤ s * ps := Nat.mul_le_mul_right ps hc
      rw [Nat.add_mul, Nat.one_mul] at h5
      omega
    have hpgub : pg < s + l := by
      have h6 : pg * ps < (s + l) * ps := by
        rw [Nat.add_mul]
        omega
      exact Nat.lt_of_mul_lt_mul_right h6
    have hdirty := dirtyRuns_dirty _ (s, l) hrun pg hspg (by simpa using hpgub)
    rw [hclean] at hdirty
    cases hdirty

/-- Witness for the amended C4 at the counterexample input itself:
page size 1, one region `[5, 7]`, bitmap word 1 (page 0 dirty). -/
theorem dump_dirty_hole_bytes_witness :
    0 < 1 ∧
    ([⟨0, [5, 7]⟩] : List Region).length ≤ ([[1]] : List (List Nat)).length ∧
    (∀ pr ∈ ([⟨0, [5, 7]⟩] : List Region).zip ([[1]] : List (List Nat)),
      ∀ run ∈ dirtyRuns (bitmapBits pr.2), run.1 * 1 + run.2 * 1 ≤ pr.1.len) ∧
    ((dump_dirty 1 [⟨0, [5, 7]⟩] (dbOf [[1]]) ⟨0, []⟩).map okEvents =
      some (.ok (allEvents 1 [⟨0, [5, 7]⟩] [[1]] 0)) ∧
     fileLength (allEvents 1 [⟨0, [5, 7]⟩] [[1]] 0) ≤ sumSizes [⟨0, [5, 7]⟩] ∧
     (∀ k (hk : k < ([⟨0, [5, 7]⟩] : List Region).length) (pg rr : Nat),
       rr < 1 →
       pg * 1 + rr < (([⟨0, [5, 7]⟩] : List Region).get ⟨k, hk⟩).len →
       (bitmapBits (([[1]] : List (List Nat)).getD k [])).getD pg false = false →
       ¬ writtenAt (allEvents 1 [⟨0, [5, 7]⟩] [[1]] 0)
         (sumSizes (([⟨0, [5, 7]⟩] : List Region).take k) + pg * 1 + rr))) := by
  refine ⟨by decide, by decide, by decide, ?_⟩
  exact dump_dirty_hole_bytes 1 [⟨0, [5, 7]⟩] [[1]] (by decide) (by decide)
    (by decide)

/-- C10. The result of `restore` is independent of the
`enable_user_page_faults`, `load_ws` and `fadvise` parameters: the body
never reads them (the only mention of `load_ws` is in commented-out
code), so two calls that differ only in these three parameters, all
other inputs and the environment equal, return the same mapped
collection, produced by the same file and mapping operations — no
background warming, page-fault registration, or caching advice is
triggered by `restore` itself. -/
theorem restore_flag_independent (env : Env) (ps : Int) (memP : String)
    (state : GuestMemoryState) (overP : String) (oregs : List (Int × Int))
    (wsP : String) (wregs : List (List Int))
    (e1 e2 l1 l2 : Bool) (f1 f2 : String) :
    restore env ps memP state e1 overP oregs wsP wregs l1 f1 =
      restore env ps memP state e2 overP oregs wsP wregs l2 f2 := rfl

/-- Counterexample to C7: on a two-region `GuestMemoryState` (with a
fully permissive environment), `restore` panics — the failed
`assert!(state.regions.len() == 1)`, the model's `none` — rather than
returning an error: the result is not `some (.error e)` for any `e`. -/
theorem restore_multi_region_cex :
    restore ⟨fun _ => true, fun _ => true, fun _ => true⟩ 4096 ""
      ⟨[⟨0, 4096, 0⟩, ⟨8192, 4096, 0⟩]⟩ false "" [] "" [] false "" = none ∧
    (∀ e : RError,
      restore ⟨fun _ => true, fun _ => true, fun _ => true⟩ 4096 ""
        ⟨[⟨0, 4096, 0⟩, ⟨8192, 4096, 0⟩]⟩ false "" [] "" [] false "" ≠
      some (.error e)) := by
  refine ⟨rfl, ?_⟩
  intro e h
  exact Option.noConfusion h

/-- C7 amended. For every MemoryState with more than one region (indeed
with any region count other than one), `restore` fails by PANICKING on
the assertion `assert!(state.regions.len() == 1)` — it does not return a
typed error and does not silently succeed. -/
theorem restore_multi_region_panics (env : Env) (ps : Int) (memP : String)
    (state : GuestMemoryState) (eupf : Bool) (overP : String)
    (oregs : List (Int × Int)) (wsP : String) (wregs : List (List Int))
    (lws : Bool) (fav : String) (h : state.regions.length ≠ 1) :
    restore env ps memP state eupf overP oregs wsP wregs lws fav = none := by
  simp [restore, h]

/-- Witness for the amended C7 at a concrete two-region state. -/
theorem restore_multi_region_panics_witness :
    (⟨[⟨0, 4096, 0⟩, ⟨8192, 4096, 0⟩]⟩ : GuestMemoryState).regions.length ≠ 1 ∧
    restore ⟨fun _ => true, fun _ => true, fun _ => true⟩ 4096 "base"
      ⟨[⟨0, 4096, 0⟩, ⟨8192, 4096, 0⟩]⟩ true "" [] "" [] true "" = none :=
  ⟨by decide,
   restore_multi_region_panics ⟨fun _ => true, fun _ => true, fun _ => true⟩
     4096 "base" ⟨[⟨0, 4096, 0⟩, ⟨8192, 4096, 0⟩]⟩ true "" [] "" [] true ""
     (by decide)⟩

/-- C5. For every single-region MemoryState whose region has stream
offset 0: with an empty base file path the base layer is an anonymous,
private mapping (`MAP_PRIVATE | MAP_ANONYMOUS`, which the OS zero-fills)
of `region.size` bytes with no backing file; with a non-empty path that
opens successfully it is a private, no-reserve
(`MAP_NORESERVE | MAP_PRIVATE`) mapping of `region.size` bytes backed by
the file at byte offset `region.offset` (= the region's stream offset);
when the open fails, `restore` returns `FileHandle`. Whenever `restore`
succeeds, its single returned region carries exactly the base layer so
computed. -/
theorem restore_base_layer (env : Env) (ps : Int) (memP : String)
    (r : GuestMemoryRegionState) (eupf : Bool) (overP : String)
    (oregs : List (Int × Int)) (wsP : String) (wregs : List (List Int))
    (lws : Bool) (fav : String) (h0 : r.offset = 0) :
    (memP = "" → baseLayer env memP r =
      .ok ⟨none, r.size, PROT_READ ||| PROT_WRITE,
           MAP_PRIVATE ||| MAP_ANONYMOUS⟩) ∧
    (memP ≠ "" → env.openOK memP = true → baseLayer env memP r =
      .ok ⟨some (memP, r.offset), r.size, PROT_READ ||| PROT_WRITE,
           MAP_NORESERVE ||| MAP_PRIVATE⟩) ∧
    (memP ≠ "" → env.openOK memP = false →
      restore env ps memP ⟨[r]⟩ eupf overP oregs wsP wregs lws fav =
        some (.error .FileHandle)) ∧
    (∀ rs, restore env ps memP ⟨[r]⟩ eupf overP oregs wsP wregs lws fav =
        some (.ok rs) →
      ∃ b fms, rs = [⟨r.base_address, r.size, b, fms⟩] ∧
        baseLayer env memP r = .ok b) := by
  refine ⟨?_, ?_, ?_, ?_⟩
  · intro h
    simp [baseLayer, h]
  · intro h1 h2
    simp [baseLayer, h1, h2]
  · intro h1 h2
    simp [restore, restoreRegions, baseLayer, h0, h1, h2]
  · intro rs hrs
    rw [restore] at hrs
    simp only [List.length_singleton, if_pos rfl] at hrs
    rw [restoreRegions] at hrs
    rw [if_pos h0] at hrs
    cases hbl : baseLayer env memP r with
    | error e => rw [hbl] at hrs; simp at hrs
    | ok bm =>
      rw [hbl] at hrs
      simp only at hrs
      cases hbd : env.buildOK bm with
      | false => rw [hbd] at hrs; simp at hrs
      | true =>
        rw [hbd] at hrs
        simp only [if_true] at hrs
        cases hov : (if overP = "" then Except.ok ([] : List FixedMmap)
            else if env.openOK overP then applyOverlay env ps overP oregs []
            else .error .FileHandle) with
        | error e => rw [hov] at hrs; simp at hrs
        | ok oms =>
          rw [hov] at hrs
          simp only at hrs
          by_cases hws : wsP = ""
          · rw [if_pos hws] at hrs
            rw [restoreRegions] at hrs
            simp only [Option.some.injEq, Except.ok.injEq] at hrs
            exact ⟨bm, oms, by simpa using hrs.symm, rfl⟩
          · rw [if_neg hws] at hrs
            cases hok : env.openOK wsP with
            | false => rw [hok] at hrs; simp at hrs
            | true =>
              rw [hok] at hrs
              simp only [if_true] at hrs
              cases haw : applyWS env ps wsP wregs 0 [] with
              | none => rw [haw] at hrs; simp at hrs
              | some res =>
                rw [haw] at hrs
                cases res with
                | error e => simp at hrs
                | ok wms =>
                  simp only [restoreRegions, Option.some.injEq,
                    Except.ok.injEq] at hrs
                  exact ⟨bm, oms ++ wms, by simpa using hrs.symm, rfl⟩

/-- Witness for C5 at a concrete single-region state, exercising the
anonymous-base conjunct and the result-shape conjunct. -/
theorem restore_base_layer_witness :
    (⟨0, 4096, 0⟩ : GuestMemoryRegionState).offset = 0 ∧
    (("" : String) = "" → baseLayer ⟨fun _ => true, fun _ => true, fun _ => true⟩
      "" ⟨0, 4096, 0⟩ =
      .ok ⟨none, 4096, PROT_READ ||| PROT_WRITE,
           MAP_PRIVATE ||| MAP_ANONYMOUS⟩) ∧
    (∀ rs, restore ⟨fun _ => true, fun _ => true, fun _ => true⟩ 4096 ""
        ⟨[⟨0, 4096, 0⟩]⟩ false "" [] "" [] false "" = some (.ok rs) →
      ∃ b fms, rs = [⟨0, 4096, b, fms⟩] ∧
        baseLayer ⟨fun _ => true, fun _ => true, fun _ => true⟩ ""
          ⟨0, 4096, 0⟩ = .ok b) := by
  have h := restore_base_layer ⟨fun _ => true, fun _ => true, fun _ => true⟩
    4096 "" ⟨0, 4096, 0⟩ false "" [] "" [] false "" (by decide)
  exact ⟨by decide, h.1, h.2.2.2⟩

theorem applyOverlay_spec (env : Env) (ps : Int) (overP : String)
    (hm : ∀ m, env.mmapOK m = true) :
    ∀ (oregs : List (Int × Int)) (acc : List FixedMmap),
      applyOverlay env ps overP oregs acc =
        .ok (acc ++ oregs.map (overlayMapSpec ps overP)) := by
  intro oregs
  induction oregs with
  | nil => intro acc; simp [applyOverlay]
  | cons pr rest ih =>
    intro acc
    obtain ⟨o, l⟩ := pr
    simp [applyOverlay, hm, ih, overlayMapSpec]

theorem applyWS_spec (env : Env) (ps : Int) (wsP : String)
    (hm : ∀ m, env.mmapOK m = true) :
    ∀ (wregs : List (List Int)), (∀ item ∈ wregs, 2 ≤ item.length) →
      ∀ (fo : Int) (acc : List FixedMmap),
        applyWS env ps wsP wregs fo acc =
          some (.ok (acc ++ wsMapsSpec ps wsP fo wregs)) := by
  intro wregs
  induction wregs with
  | nil => intro h fo acc; simp [applyWS, wsMapsSpec]
  | cons item rest ih =>
    intro h fo acc
    have h2 : 2 ≤ item.length := h item (List.mem_cons_self _ _)
    have hl0 : 0 < item.length := by omega
    have hl1 : 1 < item.length := by omega
    have e0 : item[0]? = some (item.getD 0 0) := by
      rw [List.getElem?_eq_getElem hl0, getD_eq_get_of_lt item 0 hl0]
      rfl
    have e1 : item[1]? = some (item.getD 1 0) := by
      rw [List.getElem?_eq_getElem hl1, getD_eq_get_of_lt item 0 hl1]
      rfl
    have ihr := ih (fun it hit => h it (List.mem_cons_of_mem _ hit))
    simp only [applyWS]
    rw [e0, e1]
    simp only [hm, if_true]
    rw [ihr]
    simp [wsMapsSpec, List.append_assoc]

/-- C6. In `restore` (with the fixed-address mmaps succeeding), each
overlay range `(page_offset, page_length)` is mapped fixed-address at
`base_address + page_offset*page_size` with length
`page_length*page_size`, backed by the overlay file at byte offset
`page_offset*page_size` (file offset equals guest page offset); each
working-set range `[offset_pages, length_pages]`, processed in
`ws_ranges` list order, is mapped fixed-address at
`base_address + offset_pages*page_size` with length
`length_pages*page_size`, backed by the working-set file at a running
byte offset starting at 0 and accumulating each range's byte length —
the working-set file's contents are a flat concatenation of the ranges
in list order. The returned region carries exactly these fixed mappings,
overlay layer first. -/
theorem restore_overlay_ws_layout (env : Env) (ps : Int) (memP : String)
    (r : GuestMemoryRegionState) (eupf : Bool) (overP : String)
    (oregs : List (Int × Int)) (wsP : String) (wregs : List (List Int))
    (lws : Bool) (fav : String)
    (h0 : r.offset = 0) (hov : overP ≠ "") (hws : wsP ≠ "")
    (ho : ∀ p, env.openOK p = true)
    (hm : ∀ m, env.mmapOK m = true)
    (hb : ∀ bm, env.buildOK bm = true)
    (hlen2 : ∀ item ∈ wregs, 2 ≤ item.length) :
    ∃ b, baseLayer env memP r = .ok b ∧
      restore env ps memP ⟨[r]⟩ eupf overP oregs wsP wregs lws fav =
        some (.ok [⟨r.base_address, r.size, b,
          oregs.map (overlayMapSpec ps overP) ++
            wsMapsSpec ps wsP 0 wregs⟩]) := by
  obtain ⟨b, hbl⟩ : ∃ b, baseLayer env memP r = .ok b := by
    by_cases hmp : memP = ""
    · exact ⟨⟨none, r.size, PROT_READ ||| PROT_WRITE,
        MAP_PRIVATE ||| MAP_ANONYMOUS⟩, by simp [baseLayer, hmp]⟩
    · exact ⟨⟨some (memP, r.offset), r.size, PROT_READ ||| PROT_WRITE,
        MAP_NORESERVE ||| MAP_PRIVATE⟩, by simp [baseLayer, hmp, ho]⟩
  refine ⟨b, hbl, ?_⟩
  rw [restore]
  simp only [List.length_singleton, if_pos rfl]
  rw [restoreRegions, if_pos h0, hbl]
  simp only [hb, if_true, if_neg hov, ho,
    applyOverlay_spec env ps overP hm oregs [], if_neg hws,
    applyWS_spec env ps wsP hm wregs hlen2 0 []]
  rw [restoreRegions]
  simp

/-- Witness for C6: one overlay pair and two working-set ranges at page
size 4096; the working-set file offsets run 0 then 2*4096 while the
address offsets follow the ranges. -/
theorem restore_overlay_ws_layout_witness :
    (⟨0, 16384, 0⟩ : GuestMemoryRegionState).offset = 0 ∧
    ("ov" : String) ≠ "" ∧ ("ws" : String) ≠ "" ∧
    (∀ item ∈ [[3, 2], [0, 1]], 2 ≤ List.length item) ∧
    (∃ b, baseLayer ⟨fun _ => true, fun _ => true, fun _ => true⟩ "base"
        ⟨0, 16384, 0⟩ = .ok b ∧
      restore ⟨fun _ => true, fun _ => true, fun _ => true⟩ 4096 "base"
          ⟨[⟨0, 16384, 0⟩]⟩ false "ov" [(1, 2)] "ws" [[3, 2], [0, 1]]
          false "" =
        some (.ok [⟨0, 16384, b,
          [(1, 2)].map (overlayMapSpec 4096 "ov") ++
            wsMapsSpec 4096 "ws" 0 [[3, 2], [0, 1]]⟩])) := by
  refine ⟨by decide, by decide, by decide, by decide, ?_⟩
  exact restore_overlay_ws_layout ⟨fun _ => true, fun _ => true, fun _ => true⟩
    4096 "base" ⟨0, 16384, 0⟩ false "ov" [(1, 2)] "ws" [[3, 2], [0, 1]]
    false "" (by decide) (by decide) (by decide) (fun p => rfl) (fun m => rfl)
    (fun bm => rfl) (by decide)

theorem applyWS_short (env : Env) (ps : Int) (wsP : String)
    (hm : ∀ m, env.mmapOK m = true) :
    ∀ (wregs : List (List Int)), (∃ item ∈ wregs, item.length < 2) →
      ∀ (fo : Int) (acc : List FixedMmap),
        applyWS env ps wsP wregs fo acc = none := by
  intro wregs
  induction wregs with
  | nil =>
    rintro ⟨item, hmem, -⟩
    cases hmem
  | cons it rest ih =>
    rintro ⟨item, hmem, hshort⟩ fo acc
    rcases List.mem_cons.mp hmem with rfl | hmem2
    · match item, hshort with
      | [], _ => simp [applyWS]
      | [a], _ => simp [applyWS]
    · by_cases h2 : 2 ≤ it.length
      · have hl0 : 0 < it.length := by omega
        have hl1 : 1 < it.length := by omega
        have e0 : it[0]? = some (it.getD 0 0) := by
          rw [List.getElem?_eq_getElem hl0, getD_eq_get_of_lt it 0 hl0]
          rfl
        have e1 : it[1]? = some (it.getD 1 0) := by
          rw [List.getElem?_eq_getElem hl1, getD_eq_get_of_lt it 0 hl1]
          rfl
        simp only [applyWS]
        rw [e0, e1]
        simp only [hm, if_true]
        exact ih ⟨item, hmem2, hshort⟩ _ _
      · push_neg at h2
        match it, h2 with
        | [], _ => simp [applyWS]
        | [a], _ => simp [applyWS]

theorem lwsItems_short (ps : Int) :
    ∀ (wregs : List (List Int)), (∃ item ∈ wregs, item.length < 2) →
      ∀ acc, lwsItems ps wregs acc = none := by
  intro wregs
  induction wregs with
  | nil =>
    rintro ⟨item, hmem, -⟩
    cases hmem
  | cons it rest ih =>
    rintro ⟨item, hmem, hshort⟩ acc
    rcases List.mem_cons.mp hmem with rfl | hmem2
    · match item, hshort with
      | [], _ => simp [lwsItems]
      | [a], _ => simp [lwsItems]
    · cases e0 : it[0]? with
      | none => simp [lwsItems, e0]
      | some o =>
        cases e1 : it[1]? with
        | none => simp [lwsItems, e0, e1]
        | some l =>
          simp only [lwsItems, e0, e1]
          exact ih ⟨item, hmem2, hshort⟩ _

/-- C9. `restore` and `load_working_set` index each working-set range
entry at positions 0 and 1 without checking its length. Whenever
`ws_ranges` contains an entry with fewer than two elements: a `restore`
call whose working-set path is non-empty panics (the model's `none`)
instead of returning a typed error — for any state, and given an
environment in which the opens, the base build and the fixed mmaps
themselves succeed (otherwise restore would return the corresponding
typed error before reaching the short entry) — and a `load_working_set`
call on a non-empty collection panics instead of returning a typed
error. -/
theorem ws_entry_short_panics (env : Env) (ps : Int) (memP : String)
    (state : GuestMemoryState) (eupf : Bool) (overP : String)
    (oregs : List (Int × Int)) (wsP : String) (wregs : List (List Int))
    (lws : Bool) (fav : String) (mem : List Region) (ps2 : Int)
    (hws : wsP ≠ "")
    (ho : ∀ p, env.openOK p = true)
    (hbd : ∀ bm, env.buildOK bm = true)
    (hm : ∀ m, env.mmapOK m = true)
    (hshort : ∃ item ∈ wregs, item.length < 2)
    (hmem : mem ≠ []) :
    restore env ps memP state eupf overP oregs wsP wregs lws fav = none ∧
    load_working_set mem wregs ps2 = none := by
  constructor
  · rw [restore]
    by_cases hn : state.regions.length = 1
    · rw [if_pos hn]
      match state.regions, hn with
      | [r], _ =>
        rw [restoreRegions]
        by_cases h0 : r.offset = 0
        · rw [if_pos h0]
          obtain ⟨b, hbl⟩ : ∃ b, baseLayer env memP r = .ok b := by
            by_cases hmp : memP = ""
            · exact ⟨⟨none, r.size, PROT_READ ||| PROT_WRITE,
                MAP_PRIVATE ||| MAP_ANONYMOUS⟩, by simp [baseLayer, hmp]⟩
            · exact ⟨⟨some (memP, r.offset), r.size,
                PROT_READ ||| PROT_WRITE, MAP_NORESERVE ||| MAP_PRIVATE⟩,
                by simp [baseLayer, hmp, ho]⟩
          rw [hbl]
          simp only [hbd, if_true]
          have hovres : (if overP = "" then Except.ok ([] : List FixedMmap)
              else if env.openOK overP then applyOverlay env ps overP oregs []
              else .error .FileHandle) = .ok (if overP = "" then []
                else oregs.map (overlayMapSpec ps overP)) := by
            by_cases hop : overP = ""
            · simp [hop]
            · simp [hop, ho, applyOverlay_spec env ps overP hm oregs []]
          rw [hovres]
          simp only [if_neg hws, ho, if_true]
          rw [applyWS_short env ps wsP hm wregs hshort 0 []]
        · rw [if_neg h0]
    · rw [if_neg hn]
  · match mem, hmem with
    | r :: rest, _ =>
      rw [load_working_set, lwsRegions,
        lwsItems_short ps2 wregs hshort []]

/-- Witness for C9: entry `[3]` has fewer than two elements; both calls
panic. -/
theorem ws_entry_short_panics_witness :
    ("ws" : String) ≠ "" ∧
    (∃ item ∈ [[3]], List.length item < 2) ∧
    ([⟨0, [1]⟩] : List Region) ≠ [] ∧
    restore ⟨fun _ => true, fun _ => true, fun _ => true⟩ 4096 "base"
      ⟨[⟨0, 4096, 0⟩]⟩ false "" [] "ws" [[3]] false "" = none ∧
    load_working_set [⟨0, [1]⟩] [[3]] 4096 = none := by
  have h := ws_entry_short_panics ⟨fun _ => true, fun _ => true, fun _ => true⟩
    4096 "base" ⟨[⟨0, 4096, 0⟩]⟩ false "" [] "ws" [[3]] false ""
    [⟨0, [1]⟩] 4096 (by decide) (fun p => rfl) (fun bm => rfl) (fun m => rfl)
    ⟨[3], by simp, by decide⟩ (by simp)
  exact ⟨by decide, ⟨[3], by simp, by decide⟩, by simp, h.1, h.2⟩

theorem upfRegions_spec (env : UpfEnv) (path : String)
    (hc : env.uffdCreateOK = true) (hr : env.uffdRegisterOK = true)
    (hbi : env.bindOK = true) (hac : env.acceptOK = true)
    (hsd : env.sendOK = true) :
    ∀ (mem : List Region) (tr : List UpfEvent),
      upfRegions env path mem tr = some (tr ++ upfTraceSpec path mem) := by
  intro mem
  induction mem with
  | nil => intro tr; simp [upfRegions, upfTraceSpec]
  | cons r rest ih =>
    intro tr
    simp [upfRegions, upfRegion, hc, hr, hbi, hac, hsd, ih, upfTraceSpec]

/-- Counterexample to C8: when fault-handling descriptor creation fails,
`register_for_upf` panics — the `.expect("uffd creation")`, the model's
`none` — instead of returning the claimed `UserPageFault` error (or any
error at all). -/
theorem register_for_upf_error_cex :
    register_for_upf ⟨false, true, true, true, true⟩ "/s" [⟨0, [1]⟩] = none ∧
    ∀ e : RError, register_for_upf ⟨false, true, true, true, true⟩ "/s"
      [⟨0, [1]⟩] ≠ some (.error e) := by
  refine ⟨rfl, ?_⟩
  intro e h
  exact Option.noConfusion h

/-- C8 amended. `register_for_upf` PANICS (through `.expect`/`.unwrap` —
it never returns a `UserPageFault` or any typed error) whenever
fault-handling descriptor creation, range registration, socket bind,
accept, or descriptor transfer fails on a non-empty collection; and on
success its steps are strictly ordered per region: descriptor creation,
then range registration, then socket bind, then accept, then descriptor
transfer, then the address-communicating touch. -/
theorem register_for_upf_ordered (env : UpfEnv) (path : String)
    (mem : List Region) :
    (env.uffdCreateOK = true → env.uffdRegisterOK = true →
      env.bindOK = true → env.acceptOK = true → env.sendOK = true →
      register_for_upf env path mem = some (.ok (upfTraceSpec path mem))) ∧
    (¬ (env.uffdCreateOK = true ∧ env.uffdRegisterOK = true ∧
        env.bindOK = true ∧ env.acceptOK = true ∧ env.sendOK = true) →
      mem ≠ [] → register_for_upf env path mem = none) := by
  constructor
  · intro hc hr hbi hac hsd
    rw [register_for_upf, upfRegions_spec env path hc hr hbi hac hsd mem []]
    rfl
  · intro hfail hne
    match mem, hne with
    | r :: rest, _ =>
      obtain ⟨f1, f2, f3, f4, f5⟩ := env
      rw [register_for_upf]
      cases f1 <;> cases f2 <;> cases f3 <;> cases f4 <;> cases f5 <;>
        simp_all [upfRegions, upfRegion]

/-- Witness for the amended C8: a fully successful environment yields the
ordered trace; an environment whose transfer fails panics. -/
theorem register_for_upf_ordered_witness :
    register_for_upf ⟨true, true, true, true, true⟩ "/s" [⟨7, [1, 2]⟩] =
      some (.ok (upfTraceSpec "/s" [⟨7, [1, 2]⟩])) ∧
    register_for_upf ⟨true, true, true, true, false⟩ "/s" [⟨7, [1, 2]⟩] =
      none := by
  constructor
  · exact (register_for_upf_ordered ⟨true, true, true, true, true⟩ "/s"
      [⟨7, [1, 2]⟩]).1 rfl rfl rfl rfl rfl
  · exact (register_for_upf_ordered ⟨true, true, true, true, false⟩ "/s"
      [⟨7, [1, 2]⟩]).2 (by simp) (by simp)

end MemorySnapshot
